import Mathlib

/-!
Shallow embedding of the position-indexed annotation core of the
`sequencing/isaac_variant_caller` repository, together with theorems
checking its natural-language specification against the code.

Embedded components:
* `shared_modifiers::write_filters` (gvcf_locus_info.cpp) — filter encoder;
* `is_spi_allref` (snp_util.hh) — reference-concordance predicate;
* `pos_processor_base::check_process_pos` (pos_processor_base.hh) — skip gate;
* `depth_buffer` (depth_buffer.hh) — sparse position ledger over `std::map`;
* the per-line counting loop of `get_seq_counts` (countFastaBases.cpp).
-/

namespace IsaacVC

/-! ## Filter bit-set (std::bitset over the VCF_FILTERS enumeration)

The filter set is a fixed-capacity bit-set; we represent it as a natural
number bitmask. -/

/-- Bitset membership test `filters.test(i)`. -/
def filt_test (m i : Nat) : Bool := m.testBit i

/-- Bitset emptiness test `filters.none()`. -/
def filt_none (m : Nat) : Bool := m == 0

/-- Bitset update `filters.set(i)`. -/
def filt_set (m i : Nat) : Nat := m ||| (1 <<< i)

/-- One iteration of the output loop of `shared_modifiers::write_filters`:
state is the `is_sep` flag together with the text emitted so far; a set bit
emits a `";"` separator (except before the first label) followed by the
label of filter kind `i`. -/
def wfStep (label : Nat → String) (m : Nat) (st : Bool × String) (i : Nat) :
    Bool × String :=
  if filt_test m i then (true, (if st.1 then st.2 ++ ";" else st.2) ++ label i)
  else st

/-- `shared_modifiers::write_filters` from gvcf_locus_info.cpp, with the
stream output collected into a string.  It is parameterised by
`VCF_FILTERS::SIZE` and `VCF_FILTERS::get_label`, which are declared in
gvcf_locus_info.hh (a header that is not part of the given sources): if no
filter bit is set it emits `"PASS"`, otherwise it loops over the filter
indices `0 ≤ i < size` in ascending order emitting the labels of set bits,
`";"`-separated. -/
def write_filters (size : Nat) (label : Nat → String) (m : Nat) : String :=
  if filt_none m then "PASS"
  else ((List.range size).foldl (wfStep label m) (false, "")).2

/-- Modelled from the spec: the `VCF_FILTERS` enumeration size.  The
enumeration itself lives in gvcf_locus_info.hh, which is not among the given
sources; the spec's worked example uses the enumeration order `[F1,F2,F3]`,
so `SIZE = 3`. -/
def VCF_FILTERS_SIZE : Nat := 3

/-- Modelled from the spec: the `VCF_FILTERS::get_label` table, using the
spec's example labels `F1`, `F2`, `F3` in canonical enumeration order. -/
def VCF_FILTERS_get_label (i : Nat) : String :=
  if i = 0 then "F1" else if i = 1 then "F2" else if i = 2 then "F3" else ""

/-- The `site_modifiers` record: five independent boolean flags, the filter
bit-set (as a bitmask), and the optional modified-genotype tag (`none` is
the `MODIFIED_SITE_GT::NONE` sentinel).  The field declarations are in
gvcf_locus_info.hh, which is not among the given sources; the fields are
modelled from the spec and from their uses in gvcf_locus_info.cpp. -/
structure site_modifiers where
  is_unknown : Bool
  is_covered : Bool
  is_used_covered : Bool
  is_zero_ploidy : Bool
  is_block : Bool
  filters : Nat
  modified_gt : Option Nat

/-- `write_filters` on a `site_modifiers` record, instantiated with the
spec-modelled `VCF_FILTERS` table; it reads only the filter bit-set. -/
def site_modifiers.write_filters (s : site_modifiers) : String :=
  IsaacVC.write_filters VCF_FILTERS_SIZE VCF_FILTERS_get_label s.filters

/-- The `";" ++ label` tail fragments that `write_filters` emits after the
first label: one fragment per set bit of `m` among the indices `l`. -/
def joinTail (label : Nat → String) (m : Nat) : List Nat → String
  | [] => ""
  | i :: rest => (if filt_test m i then ";" ++ label i else "") ++ joinTail label m rest

/-- The text emitted by the `write_filters` loop over indices `l` starting
with the separator flag clear. -/
def outStr (label : Nat → String) (m : Nat) : List Nat → String
  | [] => ""
  | i :: rest =>
    if filt_test m i then label i ++ joinTail label m rest else outStr label m rest

/-- Concatenation of `sep ++ a` blocks, one per element: the tail shape of a
separator-joined list. -/
def strJoinPre (sep : String) : List String → String
  | [] => ""
  | a :: as => (sep ++ a) ++ strJoinPre sep as

theorem wf_loop_true (label : Nat → String) (m : Nat) (l : List Nat) :
    ∀ s : String, l.foldl (wfStep label m) (true, s) = (true, s ++ joinTail label m l) := by
  induction l with
  | nil => intro s; simp [joinTail]
  | cons i l ih =>
    intro s
    by_cases h : filt_test m i
    · simp [wfStep, h, joinTail, ih, String.append_assoc]
    · simp [wfStep, h, joinTail, ih]

theorem wf_loop_start (label : Nat → String) (m : Nat) (l : List Nat) :
    l.foldl (wfStep label m) (false, "") = (l.any (filt_test m), outStr label m l) := by
  induction l with
  | nil => simp [outStr]
  | cons i l ih =>
    by_cases h : filt_test m i
    · simp [wfStep, h, outStr, wf_loop_true]
    · simp [wfStep, h, outStr, ih]

theorem intercalate_go_eq (sep : String) (l : List String) :
    ∀ acc : String, String.intercalate.go acc sep l = acc ++ strJoinPre sep l := by
  induction l with
  | nil => intro acc; simp [String.intercalate.go, strJoinPre]
  | cons a as ih =>
    intro acc
    simp [String.intercalate.go, strJoinPre, ih, String.append_assoc]

theorem intercalate_cons (sep a : String) (l : List String) :
    String.intercalate sep (a :: l) = a ++ strJoinPre sep l := by
  simp [String.intercalate, intercalate_go_eq]

theorem joinTail_eq (label : Nat → String) (m : Nat) (l : List Nat) :
    joinTail label m l = strJoinPre ";" ((l.filter (filt_test m)).map label) := by
  induction l with
  | nil => simp [joinTail, strJoinPre]
  | cons i l ih =>
    by_cases h : filt_test m i
    · simp [joinTail, h, strJoinPre, ih]
    · simp [joinTail, h, ih]

theorem outStr_eq (label : Nat → String) (m : Nat) (l : List Nat) :
    outStr label m l = String.intercalate ";" ((l.filter (filt_test m)).map label) := by
  induction l with
  | nil => simp [outStr, String.intercalate]
  | cons i l ih =>
    by_cases h : filt_test m i
    · simp [outStr, h, intercalate_cons, joinTail_eq]
    · simp [outStr, h, ih]

/-- C1: for every non-empty filter bit-set, `write_filters` emits exactly the
labels of the set filter kinds in ascending filter-index (canonical
enumeration) order, joined by a single `";"` with no trailing separator and
nothing else added, i.e. it equals the `";"`-intercalation of the canonical
label list; and the output is a function of the bit-set alone: setting two
bits in either order yields the identical encoded string. -/
theorem write_filters_canonical (size : Nat) (label : Nat → String) (m : Nat)
    (h : m ≠ 0) :
    write_filters size label m
      = String.intercalate ";" (((List.range size).filter (filt_test m)).map label)
    ∧ ∀ m0 a b, write_filters size label (filt_set (filt_set m0 a) b)
      = write_filters size label (filt_set (filt_set m0 b) a) := by
  constructor
  · have hn : filt_none m = false := by simp [filt_none, h]
    simp [write_filters, hn, wf_loop_start, outStr_eq]
  · intro m0 a b
    have hc : filt_set (filt_set m0 a) b = filt_set (filt_set m0 b) a := by
      simp only [filt_set]
      rw [Nat.lor_assoc, Nat.lor_assoc, Nat.lor_comm (1 <<< a)]
    rw [hc]

theorem write_filters_canonical_witness :
    (5 : Nat) ≠ 0
    ∧ write_filters 3 VCF_FILTERS_get_label 5
      = String.intercalate ";" (((List.range 3).filter (filt_test 5)).map VCF_FILTERS_get_label) :=
  ⟨by decide, (write_filters_canonical 3 VCF_FILTERS_get_label 5 (by decide)).1⟩

/-- C2: against the spec-modelled `VCF_FILTERS` table, `write_filters` emits
exactly the literal token `"PASS"` if and only if the record's filter set
has no bit set (`filters.none()`); the five boolean flags of the record play
no role. -/
theorem write_filters_pass_iff (s : site_modifiers)
    (h : s.filters < 2 ^ VCF_FILTERS_SIZE) :
    s.write_filters = "PASS" ↔ filt_none s.filters = true := by
  have key : ∀ m, m < 8 →
      (write_filters 3 VCF_FILTERS_get_label m = "PASS" ↔ filt_none m = true) := by
    decide
  have h8 : s.filters < 8 := by simpa [VCF_FILTERS_SIZE] using h
  simpa [site_modifiers.write_filters, VCF_FILTERS_SIZE] using key s.filters h8

theorem write_filters_pass_iff_witness :
    site_modifiers.write_filters ⟨false, false, false, false, false, 0, none⟩ = "PASS" :=
  (write_filters_pass_iff ⟨false, false, false, false, false, 0, none⟩ (by decide)).mpr
    (by decide)

/-! ## Reference-concordance predicate (snp_util.hh)

The pileup evidence `snp_pos_info::calls` is embedded as the list of its
`base_id` values (natural numbers); `ref_gt` is the reference identifier. -/

/-- `is_spi_allref` from snp_util.hh as compiled in release builds (the
`assert` is a no-op): scans the observed base identifiers in order and
returns `false` at the first one differing from `ref_gt`, `true` if the
scan completes. -/
def is_spi_allref (calls : List Nat) (ref_gt : Nat) : Bool :=
  match calls with
  | [] => true
  | obs_id :: rest => if ref_gt ≠ obs_id then false else is_spi_allref rest ref_gt

/-- `is_spi_allref` from snp_util.hh as compiled in debug builds: each
examined observation is first checked by `assert(obs_id != BASE_ID::ANY)`;
`none` models a tripped assertion, `some b` a normal return of `b`.
`any_id` is the `BASE_ID::ANY` sentinel, whose numeric value is declared in
seq_util.hh (not among the given sources) and is kept abstract. -/
def is_spi_allref_dbg (any_id : Nat) (calls : List Nat) (ref_gt : Nat) : Option Bool :=
  match calls with
  | [] => some true
  | obs_id :: rest =>
    if obs_id = any_id then none
    else if ref_gt ≠ obs_id then some false
    else is_spi_allref_dbg any_id rest ref_gt

/-- C3: under the precondition that no observed base identifier equals the
`BASE_ID::ANY` sentinel, `is_spi_allref` returns `true` iff every observed
identifier equals `ref_gt` (vacuously `true` on empty evidence, the empty
list being an instance of the quantifier), and the debug build agrees with
the release build without tripping its assertion. -/
theorem is_spi_allref_iff_allref (any_id ref_gt : Nat) (calls : List Nat)
    (h : ∀ x ∈ calls, x ≠ any_id) :
    (is_spi_allref calls ref_gt = true ↔ ∀ x ∈ calls, x = ref_gt)
    ∧ is_spi_allref_dbg any_id calls ref_gt = some (is_spi_allref calls ref_gt) := by
  induction calls with
  | nil => simp [is_spi_allref, is_spi_allref_dbg]
  | cons obs rest ih =>
    have hobs : obs ≠ any_id := h obs (List.mem_cons_self obs rest)
    have hrest := ih (fun x hx => h x (List.mem_cons_of_mem obs hx))
    by_cases heq : ref_gt = obs
    · subst heq
      simpa [is_spi_allref, is_spi_allref_dbg, hobs] using hrest
    · constructor
      · simp [is_spi_allref, heq]
        intro hall
        exact absurd hall.symm heq
      · simp [is_spi_allref, is_spi_allref_dbg, hobs, heq]

theorem is_spi_allref_iff_allref_witness :
    (∀ x ∈ [2, 2, 2], x ≠ 4)
    ∧ (is_spi_allref [2, 2, 2] 2 = true ↔ ∀ x ∈ [2, 2, 2], x = 2)
    ∧ is_spi_allref_dbg 4 [2, 2, 2] 2 = some (is_spi_allref [2, 2, 2] 2) :=
  ⟨by decide, (is_spi_allref_iff_allref 4 2 [2, 2, 2] (by decide)).1,
    (is_spi_allref_iff_allref 4 2 [2, 2, 2] (by decide)).2⟩

/-- C9: the assertion of `is_spi_allref` is evaluated only up to and
including the first observation that differs from `ref_gt`: whenever the
evidence is a reference-matching prefix, then a first differing
non-sentinel observation `b`, then an arbitrary suffix, the debug build
returns `some false` (the assertion never trips) no matter what the suffix
contains — in particular even when the suffix contains the `ANY`
sentinel. -/
theorem is_spi_allref_dbg_early_exit (any_id ref_gt b : Nat)
    (pre post : List Nat)
    (hpre : ∀ x ∈ pre, x = ref_gt) (href : ref_gt ≠ any_id)
    (hb : b ≠ ref_gt) (hbany : b ≠ any_id) :
    is_spi_allref_dbg any_id (pre ++ b :: post) ref_gt = some false := by
  induction pre with
  | nil =>
    have hb' : ref_gt ≠ b := Ne.symm hb
    simp [is_spi_allref_dbg, hbany, hb']
  | cons p rest ih =>
    have hp : p = ref_gt := hpre p (List.mem_cons_self p rest)
    subst hp
    have hrec := ih (fun x hx => hpre x (List.mem_cons_of_mem _ hx))
    simpa [is_spi_allref_dbg, href] using hrec

theorem is_spi_allref_dbg_early_exit_witness :
    is_spi_allref_dbg 4 ([2, 2] ++ 1 :: [4, 4]) 2 = some false :=
  is_spi_allref_dbg_early_exit 4 2 1 [2, 2] [4, 4] (by decide) (by decide)
    (by decide) (by decide)

/-! ## Stage-gated position processor (pos_processor_base.hh)

The abstract class is embedded as a state machine: the state holds the
`_is_skip_process_pos` flag together with the subclass state `σ`; the pure
virtual `process_pos` is an arbitrary function on the subclass state.  Each
call also yields the trace of `process_pos` invocations (the list of
`(stage_no, pos)` arguments it received), so "the hook is invoked exactly
once / never" is the shape of the trace. -/

/-- State of a `pos_processor_base` object: the skip flag plus the concrete
subclass state. -/
structure pos_processor_base (σ : Type) where
  _is_skip_process_pos : Bool
  sub : σ

/-- The `pos_processor_base` constructor: `_is_skip_process_pos(false)`. -/
def pos_processor_base.mk_init (s : σ) : pos_processor_base σ :=
  ⟨false, s⟩

/-- `pos_processor_base::check_process_pos`: if the skip flag is set it
returns at once; otherwise it calls the virtual `process_pos(stage_no,pos)`
(modelled by `hook` acting on the subclass state).  The second component is
the trace of hook invocations made by this call. -/
def check_process_pos (hook : σ → Int → Int → σ)
    (st : pos_processor_base σ) (stage_no pos : Int) :
    pos_processor_base σ × List (Int × Int) :=
  if st._is_skip_process_pos then (st, [])
  else ({ st with sub := hook st.sub stage_no pos }, [(stage_no, pos)])

/-- Runs a whole sequence of `check_process_pos` calls, concatenating the
hook-invocation traces. -/
def run_check_calls (hook : σ → Int → Int → σ)
    (st : pos_processor_base σ) : List (Int × Int) → pos_processor_base σ × List (Int × Int)
  | [] => (st, [])
  | c :: rest =>
    let r1 := check_process_pos hook st c.1 c.2
    let r2 := run_check_calls hook r1.1 rest
    (r2.1, r1.2 ++ r2.2)

/-- C4: while the skip flag is set, any number of `check_process_pos` calls,
at any stages and positions, produce an empty hook-invocation trace and
leave the whole state (flag and subclass state) unchanged: `process_pos` is
never invoked. -/
theorem check_process_pos_suppressed (hook : σ → Int → Int → σ)
    (st : pos_processor_base σ) (calls : List (Int × Int))
    (h : st._is_skip_process_pos = true) :
    run_check_calls hook st calls = (st, []) := by
  induction calls with
  | nil => rfl
  | cons c rest ih => simp [run_check_calls, check_process_pos, h, ih]

theorem check_process_pos_suppressed_witness :
    run_check_calls (fun (n : Nat) _ _ => n + 1) ⟨true, 0⟩ [(0, 10), (1, 10), (2, 11)]
      = (⟨true, 0⟩, []) :=
  check_process_pos_suppressed (fun n _ _ => n + 1) ⟨true, 0⟩ [(0, 10), (1, 10), (2, 11)] rfl

/-- C5: on any processor whose skip flag is clear — the state of a newly
constructed `pos_processor_base`, whose constructor initialises the flag to
`false` — each `check_process_pos(stage_no, pos)` call invokes `process_pos`
exactly once, with the same `stage_no` and `pos` passed through unchanged:
the trace is the single pair `(stage_no, pos)` and the subclass state is
transformed by exactly one hook application at those arguments. -/
theorem check_process_pos_active (hook : σ → Int → Int → σ)
    (st : pos_processor_base σ) (stage_no pos : Int)
    (h : st._is_skip_process_pos = false) :
    check_process_pos hook st stage_no pos
      = ({ st with sub := hook st.sub stage_no pos }, [(stage_no, pos)])
    ∧ ∀ s : σ, (pos_processor_base.mk_init s)._is_skip_process_pos = false := by
  refine ⟨?_, fun s => rfl⟩
  simp [check_process_pos, h]

theorem check_process_pos_active_witness :
    check_process_pos (fun (n : Nat) _ _ => n + 1) (pos_processor_base.mk_init 0) 3 100
      = (⟨false, 1⟩, [(3, 100)]) :=
  (check_process_pos_active (fun n _ _ => n + 1) (pos_processor_base.mk_init 0) 3 100 rfl).1

/-! ## Sparse position ledger (depth_buffer.hh)

`std::map<pos_t,unsigned>` is embedded as an association list with unique
keys (the uniqueness is part of the reachable-state invariant proved below);
`pos_t` is a signed integer position, embedded as `Int`. -/

/-- `std::map::find` on the association-list embedding: the value stored at
key `p`, if present. -/
def mapFind : List (Int × Nat) → Int → Option Nat
  | [], _ => none
  | (q, w) :: rest, p => if p = q then some w else mapFind rest p

/-- Map update `_data[p] = v` / `i->second = v`: replaces the first entry
with key `p`, or appends a new entry if `p` is absent. -/
def mapStore : List (Int × Nat) → Int → Nat → List (Int × Nat)
  | [], p, v => [(p, v)]
  | (q, w) :: rest, p, v =>
    if p = q then (q, v) :: rest else (q, w) :: mapStore rest p v

/-- `std::map::erase(p)`: removes the entry with key `p` if present. -/
def mapErase : List (Int × Nat) → Int → List (Int × Nat)
  | [], _ => []
  | (q, w) :: rest, p => if p = q then rest else (q, w) :: mapErase rest p

/-- The `depth_buffer` object of depth_buffer.hh: its single field is the
`count_t _data` map. -/
structure depth_buffer where
  _data : List (Int × Nat)

/-- `depth_buffer::val`: the stored count at `pos`, or `0` when the key is
absent.  A pure read: it takes the state and returns only a number. -/
def depth_buffer.val (db : depth_buffer) (pos : Int) : Nat :=
  match mapFind db._data pos with
  | none => 0
  | some v => v

/-- `depth_buffer::inc`: if `pos` is absent, inserts it with count `1`
(`_data[pos] = 1`); otherwise adds `1` to the stored count
(`i->second += 1`).  The stored count is a 32-bit `unsigned`, so the
increment wraps modulo `2^32`. -/
def depth_buffer.inc (db : depth_buffer) (pos : Int) : depth_buffer :=
  match mapFind db._data pos with
  | none => ⟨mapStore db._data pos 1⟩
  | some v => ⟨mapStore db._data pos ((v + 1) % 2 ^ 32)⟩

/-- `depth_buffer::clear_pos`: `_data.erase(pos)`. -/
def depth_buffer.clear_pos (db : depth_buffer) (pos : Int) : depth_buffer :=
  ⟨mapErase db._data pos⟩

/-- A freshly constructed `depth_buffer`: the map is empty. -/
def depth_buffer.init : depth_buffer := ⟨[]⟩

/-- The mutating operations of the `depth_buffer` interface (`val` is a pure
read and does not change the state). -/
inductive LedgerOp where
  | inc (p : Int)
  | clear (p : Int)
deriving DecidableEq

/-- Applies one ledger operation to a `depth_buffer`. -/
def applyOp (db : depth_buffer) : LedgerOp → depth_buffer
  | .inc p => db.inc p
  | .clear p => db.clear_pos p

/-- Applies a call sequence to a `depth_buffer`, oldest call first. -/
def runOps (db : depth_buffer) (ops : List LedgerOp) : depth_buffer :=
  ops.foldl applyOp db

/-- The states reachable from a freshly constructed `depth_buffer` by any
sequence of interface calls (`val` reads do not change the state, so only
`inc` and `clear_pos` appear). -/
inductive Reachable : depth_buffer → Prop where
  | init : Reachable depth_buffer.init
  | step_inc : ∀ {db : depth_buffer} (p : Int), Reachable db → Reachable (db.inc p)
  | step_clear : ∀ {db : depth_buffer} (p : Int), Reachable db → Reachable (db.clear_pos p)

/-- Representation invariant of a `depth_buffer` state: keys are unique (as
in `std::map`) and every stored count is a 32-bit `unsigned` value,
i.e. below `2^32`. -/
def dbWF (db : depth_buffer) : Prop :=
  (db._data.map Prod.fst).Nodup ∧ ∀ e ∈ db._data, e.2 < 2 ^ 32

theorem mapFind_mapStore (l : List (Int × Nat)) (p q : Int) (v : Nat) :
    mapFind (mapStore l p v) q = if q = p then some v else mapFind l q := by
  induction l with
  | nil =>
    by_cases h : q = p <;> simp [mapStore, mapFind, h]
  | cons a rest ih =>
    obtain ⟨aq, aw⟩ := a
    by_cases hpa : p = aq
    · subst hpa
      by_cases hq : q = p <;> simp [mapStore, mapFind, hq]
    · by_cases hqa : q = aq
      · subst hqa
        have hqp : ¬q = p := fun h => hpa h.symm
        simp [mapStore, mapFind, hpa, hqp]
      · simp [mapStore, mapFind, hpa, hqa, ih]

theorem mapFind_mapErase_ne (l : List (Int × Nat)) (p q : Int) (h : q ≠ p) :
    mapFind (mapErase l p) q = mapFind l q := by
  induction l with
  | nil => simp [mapErase]
  | cons a rest ih =>
    obtain ⟨aq, aw⟩ := a
    by_cases hpa : p = aq
    · subst hpa
      simp [mapErase, mapFind, h]
    · simp [mapErase, mapFind, hpa, ih]

theorem mapFind_eq_none_of_not_mem (l : List (Int × Nat)) (p : Int)
    (h : p ∉ l.map Prod.fst) : mapFind l p = none := by
  induction l with
  | nil => rfl
  | cons a rest ih =>
    obtain ⟨aq, aw⟩ := a
    simp only [List.map_cons, List.mem_cons] at h
    push_neg at h
    simp [mapFind, h.1, ih h.2]

theorem mapFind_mapErase_self (l : List (Int × Nat)) (p : Int)
    (h : (l.map Prod.fst).Nodup) : mapFind (mapErase l p) p = none := by
  induction l with
  | nil => rfl
  | cons a rest ih =>
    obtain ⟨aq, aw⟩ := a
    simp only [List.map_cons, List.nodup_cons] at h
    by_cases hpa : p = aq
    · subst hpa
      simp only [mapErase, if_pos rfl]
      exact mapFind_eq_none_of_not_mem rest p h.1
    · simp [mapErase, mapFind, hpa, ih h.2]

theorem keys_mapStore (l : List (Int × Nat)) (p : Int) (v : Nat) :
    (mapStore l p v).map Prod.fst
      = if p ∈ l.map Prod.fst then l.map Prod.fst else l.map Prod.fst ++ [p] := by
  induction l with
  | nil => simp [mapStore]
  | cons a rest ih =>
    obtain ⟨aq, aw⟩ := a
    by_cases hpa : p = aq
    · subst hpa
      simp [mapStore]
    · have : (p ∈ aq :: rest.map Prod.fst) = (p ∈ rest.map Prod.fst) := by
        simp [List.mem_cons, hpa]
      by_cases hm : p ∈ rest.map Prod.fst <;>
        simp [mapStore, hpa, ih, hm, List.mem_cons]

theorem mem_mapStore (l : List (Int × Nat)) (p : Int) (v : Nat) (e : Int × Nat)
    (h : e ∈ mapStore l p v) : e ∈ l ∨ e.2 = v := by
  induction l with
  | nil =>
    simp only [mapStore, List.mem_singleton] at h
    subst h
    right
    rfl
  | cons a rest ih =>
    obtain ⟨aq, aw⟩ := a
    by_cases hpa : p = aq
    · subst hpa
      rcases List.mem_cons.mp (by simpa [mapStore] using h) with h1 | h1
      · right; rw [h1]
      · left; exact List.mem_cons_of_mem _ h1
    · rcases List.mem_cons.mp (by simpa [mapStore, hpa] using h) with h1 | h1
      · left; rw [h1]; exact List.mem_cons_self _ _
      · rcases ih h1 with h2 | h2
        · left; exact List.mem_cons_of_mem _ h2
        · right; exact h2

theorem mapErase_sublist (l : List (Int × Nat)) (p : Int) :
    (mapErase l p).Sublist l := by
  induction l with
  | nil => simp [mapErase]
  | cons a rest ih =>
    obtain ⟨aq, aw⟩ := a
    by_cases hpa : p = aq
    · subst hpa
      simp only [mapErase, if_pos rfl]
      exact List.sublist_cons_self _ _
    · simp only [mapErase, if_neg hpa]
      exact List.Sublist.cons₂ (aq, aw) ih

theorem mapFind_mem (l : List (Int × Nat)) (p : Int) (v : Nat)
    (h : mapFind l p = some v) : (p, v) ∈ l := by
  induction l with
  | nil => simp [mapFind] at h
  | cons a rest ih =>
    obtain ⟨aq, aw⟩ := a
    by_cases hpa : p = aq
    · subst hpa
      simp [mapFind] at h
      subst h
      exact List.mem_cons_self _ _
    · simp only [mapFind, if_neg hpa] at h
      exact List.mem_cons_of_mem _ (ih h)

theorem nodup_keys_mapStore (l : List (Int × Nat)) (p : Int) (v : Nat)
    (h : (l.map Prod.fst).Nodup) : ((mapStore l p v).map Prod.fst).Nodup := by
  rw [keys_mapStore]
  by_cases hm : p ∈ l.map Prod.fst
  · simpa [hm] using h
  · simp [hm, List.nodup_append, h]

theorem dbWF_init : dbWF depth_buffer.init := by
  constructor <;> simp [depth_buffer.init]

theorem dbWF_applyOp (db : depth_buffer) (o : LedgerOp) (h : dbWF db) :
    dbWF (applyOp db o) := by
  cases o with
  | inc p =>
    have store_wf : ∀ w : Nat, w < 2 ^ 32 → dbWF ⟨mapStore db._data p w⟩ := by
      intro w hw
      refine ⟨nodup_keys_mapStore _ _ _ h.1, fun e he => ?_⟩
      rcases mem_mapStore _ _ _ _ he with h1 | h1
      · exact h.2 e h1
      · rw [h1]; exact hw
    simp only [applyOp, depth_buffer.inc]
    cases hf : mapFind db._data p with
    | none => exact store_wf 1 (by norm_num)
    | some v => exact store_wf ((v + 1) % 2 ^ 32) (Nat.mod_lt _ (by norm_num))
  | clear p =>
    refine ⟨?_, fun e he => ?_⟩
    · exact ((mapErase_sublist db._data p).map Prod.fst).nodup h.1
    · exact h.2 e ((mapErase_sublist db._data p).mem he)

theorem dbWF_runOps (ops : List LedgerOp) :
    ∀ db : depth_buffer, dbWF db → dbWF (runOps db ops) := by
  induction ops with
  | nil => intro db h; exact h
  | cons o rest ih => intro db h; exact ih (applyOp db o) (dbWF_applyOp db o h)

theorem dbWF_reachable {db : depth_buffer} (h : Reachable db) : dbWF db := by
  induction h with
  | init => exact dbWF_init
  | step_inc p _ ih => exact dbWF_applyOp _ (LedgerOp.inc p) ih
  | step_clear p _ ih => exact dbWF_applyOp _ (LedgerOp.clear p) ih

theorem val_inc (db : depth_buffer) (p q : Int) :
    (db.inc p).val q = if q = p then (db.val q + 1) % 2 ^ 32 else db.val q := by
  by_cases hq : q = p
  · subst hq
    simp only [depth_buffer.inc]
    cases hf : mapFind db._data q with
    | none =>
      simp [depth_buffer.val, mapFind_mapStore, hf]
    | some v => simp [depth_buffer.val, mapFind_mapStore, hf]
  · simp only [depth_buffer.inc]
    cases hf : mapFind db._data p with
    | none => simp [depth_buffer.val, mapFind_mapStore, hq]
    | some v => simp [depth_buffer.val, mapFind_mapStore, hq]

theorem val_clear (db : depth_buffer) (p q : Int) (h : dbWF db) :
    (db.clear_pos p).val q = if q = p then 0 else db.val q := by
  by_cases hq : q = p
  · subst hq
    simp [depth_buffer.clear_pos, depth_buffer.val, mapFind_mapErase_self _ _ h.1]
  · simp [depth_buffer.clear_pos, depth_buffer.val, mapFind_mapErase_ne _ _ _ hq, hq]

/-- The effect of one ledger operation on the logical count of
coordinate `c` (the increment wraps modulo `2^32`, as the stored
`unsigned` does). -/
def opEffect (c : Int) (v : Nat) : LedgerOp → Nat
  | .inc p => if p = c then (v + 1) % 2 ^ 32 else v
  | .clear p => if p = c then 0 else v

theorem val_applyOp (db : depth_buffer) (o : LedgerOp) (c : Int) (h : dbWF db) :
    (applyOp db o).val c = opEffect c (db.val c) o := by
  cases o with
  | inc p =>
    by_cases hpc : p = c
    · subst hpc
      simp [applyOp, opEffect, val_inc]
    · have hcp : ¬(c = p) := fun hh => hpc hh.symm
      simp [applyOp, opEffect, val_inc, hpc, hcp]
  | clear p =>
    by_cases hpc : p = c
    · subst hpc
      simp [applyOp, opEffect, val_clear db p p h]
    · have hcp : ¬(c = p) := fun hh => hpc hh.symm
      simp [applyOp, opEffect, val_clear db p c h, hpc, hcp]

theorem run_val (ops : List LedgerOp) :
    ∀ db : depth_buffer, dbWF db → ∀ c : Int,
      (runOps db ops).val c = ops.foldl (opEffect c) (db.val c) := by
  induction ops with
  | nil => intro db _ c; rfl
  | cons o rest ih =>
    intro db h c
    have step : (runOps db (o :: rest)).val c = (runOps (applyOp db o) rest).val c := rfl
    rw [step, ih (applyOp db o) (dbWF_applyOp db o h) c, val_applyOp db o c h]
    rfl

theorem foldl_opEffect_no_inc (c : Int) (l : List LedgerOp)
    (h : LedgerOp.inc c ∉ l) : l.foldl (opEffect c) 0 = 0 := by
  induction l with
  | nil => rfl
  | cons o rest ih =>
    have hrest : LedgerOp.inc c ∉ rest := fun hm => h (List.mem_cons_of_mem o hm)
    cases o with
    | inc p =>
      have hpc : p ≠ c := by
        intro hpc
        exact h (by rw [hpc]; exact List.mem_cons_self _ _)
      simp [opEffect, hpc, ih hrest]
    | clear p =>
      by_cases hpc : p = c <;> simp [opEffect, hpc, ih hrest]

theorem foldl_opEffect_count (c : Int) (l : List LedgerOp)
    (h : LedgerOp.clear c ∉ l) :
    ∀ v : Nat, v < 2 ^ 32 →
      l.foldl (opEffect c) v = (v + l.countP (fun o => o == LedgerOp.inc c)) % 2 ^ 32 := by
  induction l with
  | nil =>
    intro v hv
    simpa using (Nat.mod_eq_of_lt hv).symm
  | cons o rest ih =>
    intro v hv
    have hrest : LedgerOp.clear c ∉ rest := fun hm => h (List.mem_cons_of_mem o hm)
    cases o with
    | inc p =>
      by_cases hpc : p = c
      · subst hpc
        have hlt : (v + 1) % 2 ^ 32 < 2 ^ 32 := Nat.mod_lt _ (by norm_num)
        have hstep : (LedgerOp.inc p :: rest).foldl (opEffect p) v
            = rest.foldl (opEffect p) ((v + 1) % 2 ^ 32) := by
          simp [opEffect]
        rw [hstep, ih hrest _ hlt, Nat.mod_add_mod, List.countP_cons]
        have hbeq : (LedgerOp.inc p == LedgerOp.inc p) = true := by simp
        rw [hbeq, if_pos rfl]
        congr 1
        omega
      · have hne : (LedgerOp.inc p == LedgerOp.inc c) = false := by simp [hpc]
        simp [opEffect, hpc, List.countP_cons, hne, ih hrest v hv]
    | clear p =>
      have hpc : p ≠ c := by
        intro hpc
        exact h (by rw [hpc]; exact List.mem_cons_self _ _)
      simp [opEffect, hpc, List.countP_cons, ih hrest v hv]

theorem runOps_append (db : depth_buffer) (l1 l2 : List LedgerOp) :
    runOps db (l1 ++ l2) = runOps (runOps db l1) l2 := by
  simp [runOps, List.foldl_append]

theorem Reachable_runOps (ops : List LedgerOp) :
    ∀ db : depth_buffer, Reachable db → Reachable (runOps db ops) := by
  induction ops with
  | nil => intro db h; exact h
  | cons o rest ih =>
    intro db h
    cases o with
    | inc p => exact ih (db.inc p) (Reachable.step_inc p h)
    | clear p => exact ih (db.clear_pos p) (Reachable.step_clear p h)

theorem runOps_replicate_inc (c : Int) (k : Nat) :
    runOps depth_buffer.init (List.replicate (k + 1) (LedgerOp.inc c))
      = ⟨[(c, (k + 1) % 2 ^ 32)]⟩ := by
  induction k with
  | zero =>
    show runOps depth_buffer.init [LedgerOp.inc c] = _
    simp [runOps, applyOp, depth_buffer.inc, depth_buffer.init, mapFind, mapStore]
  | succ k ih =>
    rw [List.replicate_succ' (k + 1), runOps_append, ih]
    show applyOp _ (LedgerOp.inc c) = _
    simp [applyOp, depth_buffer.inc, mapFind, mapStore]

/-- C6 as amended: starting from a freshly constructed ledger, after any
call sequence `pre` that never increments coordinate `c` (clears and
operations on other coordinates allowed), `val c` is `0`; and after a
further call sequence `ops` containing exactly `n` `inc c` calls and no
intervening `clear_pos c` (operations on other coordinates allowed),
`val c` is `n mod 2^32` — the stored count is a 32-bit `unsigned`, so it
equals `n` exactly when `n < 2^32`. -/
theorem depth_buffer_val_counts (c : Int) (n : Nat) (pre ops : List LedgerOp)
    (hpre : LedgerOp.inc c ∉ pre)
    (hcount : ops.countP (fun o => o == LedgerOp.inc c) = n)
    (hnoclear : LedgerOp.clear c ∉ ops) :
    (runOps depth_buffer.init pre).val c = 0
    ∧ (runOps (runOps depth_buffer.init pre) ops).val c = n % 2 ^ 32 := by
  have hinit : depth_buffer.init.val c = 0 := rfl
  have h0 : (runOps depth_buffer.init pre).val c = 0 := by
    rw [run_val pre depth_buffer.init dbWF_init c, hinit]
    exact foldl_opEffect_no_inc c pre hpre
  refine ⟨h0, ?_⟩
  have hWF : dbWF (runOps depth_buffer.init pre) := dbWF_runOps pre _ dbWF_init
  rw [run_val ops _ hWF c, h0,
    foldl_opEffect_count c ops hnoclear 0 (by norm_num), hcount, Nat.zero_add]

theorem depth_buffer_val_counts_witness :
    (runOps depth_buffer.init [LedgerOp.inc 7]).val 100 = 0
    ∧ (runOps (runOps depth_buffer.init [LedgerOp.inc 7])
        [LedgerOp.inc 100, LedgerOp.clear 7, LedgerOp.inc 100]).val 100 = 2 % 2 ^ 32 :=
  depth_buffer_val_counts 100 2 [LedgerOp.inc 7]
    [LedgerOp.inc 100, LedgerOp.clear 7, LedgerOp.inc 100]
    (by decide) (by decide) (by decide)

/-- C6 as stated fails on the code: instantiating it at `pre = []`,
`ops = 2^32` repetitions of `inc 100` and `n = 2^32` (these satisfy all
three of its hypotheses, as the first three conjuncts record), the program
reads `val 100 = 0`, not `2^32`: the 32-bit `unsigned` count has wrapped. -/
theorem depth_buffer_val_counts_counterexample :
    LedgerOp.inc 100 ∉ ([] : List LedgerOp)
    ∧ (List.replicate (2 ^ 32) (LedgerOp.inc 100)).countP
        (fun o => o == LedgerOp.inc 100) = 2 ^ 32
    ∧ LedgerOp.clear 100 ∉ List.replicate (2 ^ 32) (LedgerOp.inc 100)
    ∧ (runOps (runOps depth_buffer.init ([] : List LedgerOp))
        (List.replicate (2 ^ 32) (LedgerOp.inc 100))).val 100 = 0
    ∧ (0 : Nat) ≠ 2 ^ 32 := by
  have h := runOps_replicate_inc 100 (2 ^ 32 - 1)
  rw [show (2 ^ 32 - 1 + 1 : Nat) = 2 ^ 32 by norm_num] at h
  have h0 : runOps depth_buffer.init ([] : List LedgerOp) = depth_buffer.init := rfl
  refine ⟨List.not_mem_nil _, ?_, ?_, ?_, by norm_num⟩
  · rw [List.countP_replicate]
    simp
  · intro hm
    rw [List.mem_replicate] at hm
    exact LedgerOp.noConfusion hm.2
  · rw [h0, h]
    simp [depth_buffer.val, mapFind]

/-- C7: on every reachable ledger state, after `clear_pos c` the value of
`c` reads `0`, a subsequent `inc c` makes it read `1` exactly as on a
ledger that never saw `c`, and the value of every other coordinate
`d ≠ c` is unchanged by the eviction. -/
theorem depth_buffer_clear_pos_frame (db : depth_buffer) (c : Int)
    (h : Reachable db) :
    (db.clear_pos c).val c = 0
    ∧ ((db.clear_pos c).inc c).val c = 1
    ∧ ∀ d : Int, d ≠ c → (db.clear_pos c).val d = db.val d := by
  have hWF := dbWF_reachable h
  have h1 : (db.clear_pos c).val c = 0 := by
    simpa using val_clear db c c hWF
  refine ⟨h1, ?_, ?_⟩
  · rw [val_inc]
    simp [h1]
  · intro d hd
    simpa [hd] using val_clear db c d hWF

theorem depth_buffer_clear_pos_frame_witness :
    (((depth_buffer.init.inc 100).inc 101).clear_pos 100).val 100 = 0
    ∧ ((((depth_buffer.init.inc 100).inc 101).clear_pos 100).inc 100).val 100 = 1
    ∧ (((depth_buffer.init.inc 100).inc 101).clear_pos 100).val 101
      = ((depth_buffer.init.inc 100).inc 101).val 101 :=
  ⟨(depth_buffer_clear_pos_frame _ 100
      (Reachable.step_inc 101 (Reachable.step_inc 100 Reachable.init))).1,
   (depth_buffer_clear_pos_frame _ 100
      (Reachable.step_inc 101 (Reachable.step_inc 100 Reachable.init))).2.1,
   (depth_buffer_clear_pos_frame _ 100
      (Reachable.step_inc 101 (Reachable.step_inc 100 Reachable.init))).2.2 101
      (by decide)⟩

/-- C8 as amended: every ledger state reachable by any sequence of
interface calls from the freshly constructed ledger has unique keys and
every stored count below `2^32` (the range of the `unsigned` count), and a
key that is absent reads as zero (`mapFind = none` implies `val = 0`).
`val` is embedded as a pure read: it returns only a number and no
successor state, so a read can neither create an entry nor mutate the
ledger.  The converse absence direction — and with it "no stored entry has
value `0`" — does not hold of the code: a count that wraps to `0` stays
stored (see the counterexample). -/
theorem depth_buffer_reachable_invariant (db : depth_buffer)
    (h : Reachable db) :
    ((db._data.map Prod.fst).Nodup ∧ ∀ e ∈ db._data, e.2 < 2 ^ 32)
    ∧ ∀ c : Int, mapFind db._data c = none → db.val c = 0 := by
  have hWF := dbWF_reachable h
  refine ⟨hWF, fun c hn => ?_⟩
  simp [depth_buffer.val, hn]

theorem depth_buffer_reachable_invariant_witness :
    Reachable (depth_buffer.init.inc 100)
    ∧ (((depth_buffer.init.inc 100)._data.map Prod.fst).Nodup)
    ∧ (depth_buffer.init.inc 100).val 101 = 0 :=
  ⟨Reachable.step_inc 100 Reachable.init,
   (depth_buffer_reachable_invariant _ (Reachable.step_inc 100 Reachable.init)).1.1,
   (depth_buffer_reachable_invariant _ (Reachable.step_inc 100 Reachable.init)).2 101
     (by decide)⟩

/-- C8 as stated fails on the code: after `2^32` increments of coordinate
`100` — a reachable state — the wrapped `unsigned` count is stored as `0`:
the map holds the entry `(100, 0)` (a stored entry with value `0`), the
key is present (`mapFind` is not `none`), and yet `val` reads `0`, so
"absent ⇔ logical value zero" is broken. -/
theorem depth_buffer_reachable_invariant_counterexample :
    Reachable (runOps depth_buffer.init (List.replicate (2 ^ 32) (LedgerOp.inc 100)))
    ∧ (100, 0) ∈ (runOps depth_buffer.init
        (List.replicate (2 ^ 32) (LedgerOp.inc 100)))._data
    ∧ mapFind (runOps depth_buffer.init
        (List.replicate (2 ^ 32) (LedgerOp.inc 100)))._data 100 ≠ none
    ∧ (runOps depth_buffer.init
        (List.replicate (2 ^ 32) (LedgerOp.inc 100))).val 100 = 0 := by
  have h := runOps_replicate_inc 100 (2 ^ 32 - 1)
  rw [show (2 ^ 32 - 1 + 1 : Nat) = 2 ^ 32 by norm_num] at h
  refine ⟨Reachable_runOps _ _ Reachable.init, ?_, ?_, ?_⟩
  · rw [h]; simp
  · rw [h]; simp [mapFind]
  · rw [h]; simp [depth_buffer.val, mapFind]

/-! ## countFastaBases.cpp — per-line base counting

`isBase` is the 128-entry lookup table of countFastaBases.cpp (true exactly
at the character codes of `ACGTacgt`); the sequence-line counting loop of
`get_seq_counts` is embedded over the byte values of one line, with `none`
modelling an out-of-bounds table access (undefined behaviour in the C++). -/

/-- The `static const bool isBase[128]` table of countFastaBases.cpp,
row for row. -/
def isBase : List Bool :=
  [false, false, false, false, false, false, false, false,
   false, false, false, false, false, false, false, false,
   false, false, false, false, false, false, false, false,
   false, false, false, false, false, false, false, false,
   false, false, false, false, false, false, false, false,
   false, false, false, false, false, false, false, false,
   false, false, false, false, false, false, false, false,
   false, false, false, false, false, false, false, false,
   false, true, false, true, false, false, false, true,
   false, false, false, false, false, false, false, false,
   false, false, false, false, true, false, false, false,
   false, false, false, false, false, false, false, false,
   false, true, false, true, false, false, false, true,
   false, false, false, false, false, false, false, false,
   false, false, false, false, true, false, false, false,
   false, false, false, false, false, false, false, false]

/-- The value of `static_cast<int8_t>(*b)` for a byte value `b`: two's
complement reinterpretation of the low 8 bits as a signed 8-bit integer. -/
def int8_cast (b : Nat) : Int :=
  if b % 256 < 128 then ((b % 256 : Nat) : Int) else ((b % 256 : Nat) : Int) - 256

/-- The sequence-line counting loop of `get_seq_counts`
(countFastaBases.cpp): for each byte of the line (getline already removed
the newline; the loop stops at the NUL terminator, so the embedded list
holds the non-NUL bytes), a `'\r'` (13) is skipped, every other byte
increments `totalCount`, and `isBase[static_cast<int8_t>(*b)]` decides
whether `knownCount` is incremented.  The accumulators are
`(knownCount, totalCount)`; `none` models an out-of-bounds index into the
128-entry `isBase` array. -/
def count_line : List Nat → Nat → Nat → Option (Nat × Nat)
  | [], known, total => some (known, total)
  | b :: rest, known, total =>
    if b = 13 then count_line rest known total
    else if (int8_cast b) < 0 then none
    else
      match isBase.get? (int8_cast b).toNat with
      | none => none
      | some isb => count_line rest (known + if isb then 1 else 0) (total + 1)

/-- C10 fails on the code: the byte `0xC3 = 195` (neither NUL nor `'\r'`,
so it reaches the counting loop on any non-header line containing it) has
`static_cast<int8_t>(195) = -61 < 0`, so the loop indexes `isBase` out of
bounds; the in-bounds property does hold for every ASCII byte `b < 128`,
and on such bytes the loop counts normally (`ACGTN` gives 4 known of 5
total). -/
theorem countFastaBases_signed_index_bug :
    (195 : Nat) ≠ 0 ∧ (195 : Nat) ≠ 13
    ∧ int8_cast 195 = -61
    ∧ int8_cast 195 < 0
    ∧ count_line [195] 0 0 = none
    ∧ (List.range 128).all (fun b => decide (0 ≤ int8_cast b ∧ int8_cast b < 128)) = true
    ∧ count_line [65, 67, 71, 84, 78] 0 0 = some (4, 5) := by
  decide

end IsaacVC
